import Mathlib

/-!
# Verification of the slack-prediction-market core

A shallow embedding of the prediction-market engine found in `src/index.js`
and the two variants in `src/unnamed/part_000` (a Postgres-backed
"leaderboard" variant and an in-memory variant).

Modelling conventions:
* JS numbers that hold integer currency amounts (`bankroll`, `total_staked`,
  `stake`, `total_stake`) are modelled as `Int`; probabilities and derived
  ratios as `Rat` (exact arithmetic in place of IEEE doubles).
* Timestamps (`Date`) are modelled as `Int` instants; the current time is an
  explicit parameter of each operation that consults the clock.
* The Postgres tables `users`, `markets`, `bets` are association lists inside
  a `DB` structure.  Each SQL statement is one pure step on `DB`; a
  `BEGIN ... COMMIT` block is one atomic step, while statements issued outside
  a transaction each commit individually.
* Fallible operations return the post-operation state together with an
  `Except Err` result, mirroring `throw`/caught-error paths.
-/

namespace SlackMarket

/-- Error taxonomy of the core operations (spec section 7). -/
inductive Err where
  | InvalidProbability
  | MarketNotFound
  | MarketExpired
  | InsufficientBankroll (available : Int)
  | InvalidDeadline
  | DuplicateId
  | AlreadyResolved
  | NoParticipants
  deriving Repr, DecidableEq

/-- `calculateStake` from `src/index.js` line 205:
`Math.min(Math.max(desired_amount, 1), 100)`. -/
def calculateStake (desired_amount : Int) : Int :=
  min (max desired_amount 1) 100

/-- `updateMarketProbability` from `src/index.js` lines 210-220 (identical in
both `part_000` variants).  The two parallel JS arrays `current_stakes` and
`current_probs` are modelled as one list of (stake, probability) pairs. -/
def updateMarketProbability (current_bets : List (Rat × Rat))
    (new_stake new_prob old_stake old_prob : Rat) : Rat :=
  let current_total := (current_bets.map Prod.fst).sum
  if current_total = 0 then new_prob
  else
    let new_total := current_total - old_stake + new_stake
    let weighted_sum := (current_bets.map (fun b => b.1 * b.2)).sum
        - old_stake * old_prob + new_stake * new_prob
    if new_total = 0 then 1/2 else weighted_sum / new_total

/-- Settlement accuracy (`src/index.js` line 479):
`outcome ? probability : 1 - probability`. -/
def betAccuracy (outcome : Bool) (probability : Rat) : Rat :=
  if outcome then probability else 1 - probability

/-- Settlement payout (`src/index.js` line 480):
`Math.floor(bet.stake * (1 + accuracy))`. -/
def betPayout (outcome : Bool) (stake : Int) (probability : Rat) : Int :=
  ⌊(stake : Rat) * (1 + betAccuracy outcome probability)⌋

/-- `wasCorrect` (`src/index.js` line 483):
`(outcome && p > 0.5) || (!outcome && p < 0.5)`. -/
def wasCorrect (outcome : Bool) (probability : Rat) : Bool :=
  (outcome && decide ((1:Rat)/2 < probability))
    || (!outcome && decide (probability < 1/2))

/-! ## Data model: rows of the `users`, `markets` and `bets` tables -/

/-- A row of the `users` table (leaderboard variant schema, after
`migrateDatabase` has added the stat columns, all `NOT NULL` with defaults, so
the conditional field-spread in the resolve branch always applies). -/
structure User where
  bankroll : Int
  total_staked : Int
  bets_placed : Int
  bets_won : Int
  accuracy : Rat
  total_profit : Int
  biggest_win : Int
  prediction_streak : Int
  best_streak : Int
  deriving Repr, DecidableEq

/-- Row inserted by `getUser` for a previously unseen user id
(`INSERT ... VALUES ($1, 1000, 0, 0, 0, 0.5, 0, 0, 0, 0, ...)`). -/
def defaultUser : User :=
  { bankroll := 1000, total_staked := 0, bets_placed := 0, bets_won := 0
    accuracy := 1/2, total_profit := 0, biggest_win := 0
    prediction_streak := 0, best_streak := 0 }

/-- A row of the `markets` table. -/
structure Market where
  id : String
  question : String
  creator : String
  deadline : Int
  resolved : Bool
  resolution : Option Bool
  resolved_at : Option Int
  probability : Rat
  total_stake : Int
  active : Bool
  deriving Repr, DecidableEq

/-- A row of the `bets` table (the serial `id` and the timestamps carry no
logic and are omitted; `(market_id, user_id)` is UNIQUE). -/
structure BetRow where
  market_id : String
  user_id : String
  stake : Int
  probability : Rat
  deriving Repr, DecidableEq

/-- The whole database.  `users` is keyed by the user id. -/
structure DB where
  users : List (String × User)
  markets : List Market
  bets : List BetRow
  deriving Repr, DecidableEq

/-- Empty database (freshly initialized tables). -/
def initDB : DB := { users := [], markets := [], bets := [] }

/-! ## Row-level helpers (`SELECT` / `UPDATE` / upsert) -/

/-- `SELECT * FROM users WHERE id = $1`, as the stored row or the lazily
inserted default (`getUser` below separates the lookup from the insert). -/
def findUser (us : List (String × User)) (uid : String) : User :=
  (((us.find? (fun x => x.1 == uid))).map Prod.snd).getD defaultUser

/-- `getUser` (`src/index.js` lines 83-99): returns the user row, inserting a
fresh row with the default values when the id is unseen.  The insert commits
immediately (it is not part of any enclosing transaction). -/
def getUser (db : DB) (uid : String) : User × DB :=
  match db.users.find? (fun x => x.1 == uid) with
  | some x => (x.2, db)
  | none => (defaultUser, { db with users := db.users ++ [(uid, defaultUser)] })

/-- `UPDATE users SET ... WHERE id = $1`. -/
def updateUserRow (us : List (String × User)) (uid : String) (f : User → User) :
    List (String × User) :=
  us.map (fun x => if x.1 == uid then (x.1, f x.2) else x)

/-- `SELECT * FROM markets WHERE id = $1`. -/
def findMarket (ms : List Market) (mid : String) : Option Market :=
  ms.find? (fun m => m.id == mid)

/-- `UPDATE markets SET ... WHERE id = $1`. -/
def updateMarketRow (ms : List Market) (mid : String) (f : Market → Market) :
    List Market :=
  ms.map (fun m => if m.id == mid then f m else m)

/-- The UNIQUE key predicate of the `bets` table. -/
def betKey (mid uid : String) (b : BetRow) : Bool :=
  b.market_id == mid && b.user_id == uid

/-- `getUserBet` (`SELECT * FROM bets WHERE market_id = $1 AND user_id = $2`). -/
def oldBetOf (bets : List BetRow) (mid uid : String) : Option BetRow :=
  bets.find? (betKey mid uid)

/-- `old_bet ? old_bet.stake : 0` (`src/index.js` line 267). -/
def oldStakeOf (bets : List BetRow) (mid uid : String) : Int :=
  match oldBetOf bets mid uid with
  | some b => b.stake
  | none => 0

/-- `getMarketBets` (`SELECT * FROM bets WHERE market_id = $1`). -/
def marketBets (bets : List BetRow) (mid : String) : List BetRow :=
  bets.filter (fun b => b.market_id == mid)

/-- `upsertBet` (`src/index.js` lines 173-188):
`INSERT ... ON CONFLICT (market_id, user_id) DO UPDATE SET stake, probability`. -/
def upsertBet (bets : List BetRow) (mid uid : String) (stake : Int)
    (probability : Rat) : List BetRow :=
  if bets.any (betKey mid uid) then
    bets.map (fun b => if betKey mid uid b then
      { b with stake := stake, probability := probability } else b)
  else
    bets ++ [{ market_id := mid, user_id := uid, stake := stake,
               probability := probability }]

/-! ## Bet placement (`placeBet`, `src/index.js` lines 223-304) -/

/-- The bets fed into the probability recomputation (`src/index.js` lines
251-254): all bets on the market except the calling user's own. -/
def otherBetsOf (bets : List BetRow) (mid uid : String) : List BetRow :=
  (marketBets bets mid).filter (fun b => !(b.user_id == uid))

/-- `new_prob` as computed at `src/index.js` lines 257-264: the other bets'
(stake, probability) pairs with zero correction terms. -/
def newProbOf (bets : List BetRow) (mid uid : String) (stake : Int)
    (probability : Rat) : Rat :=
  updateMarketProbability
    ((otherBetsOf bets mid uid).map (fun b => ((b.stake : Rat), b.probability)))
    (stake : Rat) probability 0 0

/-- `available_bankroll` (`src/index.js` line 244), computed from the (possibly
freshly created) user row and the user's existing bet on this market. -/
def availableBankroll (db : DB) (mid uid : String) : Int :=
  (getUser db uid).1.bankroll - (getUser db uid).1.total_staked
    + oldStakeOf (getUser db uid).2.bets mid uid

/-- The `BEGIN ... COMMIT` transaction of `placeBet` (`src/index.js` lines
270-289): upsert the bet, write the market's new probability and total stake,
add the net stake change to the user's `total_staked`.  One atomic step. -/
def placeBetApply (db1 : DB) (market : Market) (mid uid : String) (user : User)
    (stake : Int) (probability : Rat) : DB :=
  { users := updateUserRow db1.users uid
      (fun u => { u with total_staked :=
        user.total_staked + (stake - oldStakeOf db1.bets mid uid) })
    markets := updateMarketRow db1.markets mid
      (fun m => { m with
        probability := newProbOf db1.bets mid uid stake probability
        total_stake := market.total_stake - oldStakeOf db1.bets mid uid + stake })
    bets := upsertBet db1.bets mid uid stake probability }

/-- Result record of a successful `placeBet`. -/
structure PlaceBetResult where
  stake_placed : Int
  new_market_probability : Rat
  was_capped : Bool
  deriving Repr, DecidableEq

/-- `placeBet` (`src/index.js` lines 223-304).  Returns the post-call database
and the result; on a thrown error the database reflects exactly the writes
that had already committed (only `getUser`'s lazy insert can precede a
throw). -/
def placeBet (now : Int) (mid uid : String) (desired_amount : Int)
    (probability : Rat) (db : DB) : DB × Except Err PlaceBetResult :=
  if probability < 0 ∨ 1 < probability then (db, .error .InvalidProbability)
  else
    match findMarket db.markets mid with
    | none => (db, .error .MarketNotFound)
    | some market =>
      if market.active = false then (db, .error .MarketNotFound)
      else if market.deadline < now then (db, .error .MarketExpired)
      else if availableBankroll db mid uid < calculateStake desired_amount then
        ((getUser db uid).2,
         .error (.InsufficientBankroll (availableBankroll db mid uid)))
      else
        (placeBetApply (getUser db uid).2 market mid uid (getUser db uid).1
           (calculateStake desired_amount) probability,
         .ok { stake_placed := calculateStake desired_amount
               new_market_probability := newProbOf (getUser db uid).2.bets mid uid
                 (calculateStake desired_amount) probability
               was_capped := decide (calculateStake desired_amount < desired_amount) })

/-! ## Resolution (`/predict resolve`, leaderboard variant,
`src/unnamed/part_000` lines 855-919) -/

/-- The per-bettor settlement (`src/unnamed/part_000` lines 876-907): payout,
directional correctness, accuracy, profit, streak and biggest-win updates,
all written back with a single `UPDATE users` statement. -/
def settleUser (outcome : Bool) (b : BetRow) (user : User) : User :=
  let payout := betPayout outcome b.stake b.probability
  let correct := wasCorrect outcome b.probability
  let newBetsWon := user.bets_won + (if correct then 1 else 0)
  let newBetsPlaced := user.bets_placed + 1
  let newStreak := if correct then user.prediction_streak + 1 else 0
  { bankroll := user.bankroll + payout
    total_staked := user.total_staked - b.stake
    bets_placed := newBetsPlaced
    bets_won := newBetsWon
    accuracy := if 0 < newBetsPlaced then (newBetsWon : Rat) / (newBetsPlaced : Rat)
                else 1/2
    total_profit := user.total_profit + (payout - b.stake)
    biggest_win := max user.biggest_win payout
    prediction_streak := newStreak
    best_streak := max user.best_streak newStreak }

/-- One bettor's settlement as it commits: `getUser` followed by one
`UPDATE users` statement.  Each such step auto-commits on its own --- the
resolve branch opens no transaction. -/
def resolveUserStep (outcome : Bool) (b : BetRow) (db : DB) : DB :=
  match getUser db b.user_id with
  | (user, db1) =>
    { db1 with users := (updateUserRow db1.users b.user_id
        (fun _ => settleUser outcome b user)) }

/-- All per-bettor settlements of a market, in bet order. -/
def settleAll (outcome : Bool) (bs : List BetRow) (db : DB) : DB :=
  bs.foldl (fun d b => resolveUserStep outcome b d) db

/-- The full state change of a (completed) resolution: settle every bet on the
market, then mark the market resolved
(`src/unnamed/part_000` lines 876-919). -/
def resolveApply (now : Int) (mid : String) (outcome : Bool) (db : DB) : DB :=
  let db1 := settleAll outcome (marketBets db.bets mid) db
  { db1 with markets := (updateMarketRow db1.markets mid
      (fun m => { m with resolved := true, resolution := some outcome,
                         resolved_at := some now })) }

/-- The resolve branch of `/predict` (`src/unnamed/part_000` lines 855-919):
market lookup, already-resolved and no-bets guards, then payouts and the
market transition. -/
def resolveMarket (now : Int) (mid : String) (outcome : Bool) (db : DB) :
    DB × Except Err Unit :=
  match findMarket db.markets mid with
  | none => (db, .error .MarketNotFound)
  | some market =>
    if market.resolved then (db, .error .AlreadyResolved)
    else if (marketBets db.bets mid).isEmpty then (db, .error .NoParticipants)
    else (resolveApply now mid outcome db, .ok ())

/-! ## Market creation (`/predict create`, `src/index.js` lines 530-549) -/

/-- The create branch: reject a deadline strictly before `new Date()`
(`if (deadline < new Date())`), reject a duplicate id (primary-key violation
thrown by `INSERT`), otherwise insert the market with probability 0.5, zero
stake, active. -/
def createMarketCmd (now : Int) (mid question creator : String) (deadline : Int)
    (db : DB) : DB × Except Err Unit :=
  if deadline < now then (db, .error .InvalidDeadline)
  else if (findMarket db.markets mid).isSome then (db, .error .DuplicateId)
  else
    ({ db with markets := db.markets ++
        [{ id := mid, question := question, creator := creator
           deadline := deadline, resolved := false, resolution := none
           resolved_at := none, probability := 1/2, total_stake := 0
           active := true }] },
     .ok ())

/-! ## Observables and operation sequences -/

/-- Whether the market with this id exists and is unresolved (bets on it are
"open"). -/
def marketOpenL (ms : List Market) (mid : String) : Bool :=
  match findMarket ms mid with
  | some m => !m.resolved
  | none => false

/-- `marketOpenL` on a database. -/
def marketOpen (db : DB) (mid : String) : Bool :=
  marketOpenL db.markets mid

/-- One bet row's contribution to a user's open stake. -/
def betContrib (uid : String) (openb : String → Bool) (b : BetRow) : Int :=
  if b.user_id = uid ∧ openb b.market_id then b.stake else 0

/-- Sum of a user's open bet stakes, given an openness predicate on market
ids. -/
def openSumAux (bets : List BetRow) (openb : String → Bool) (uid : String) : Int :=
  (bets.map (betContrib uid openb)).sum

/-- The sum of the stakes of a user's currently open bets (bets whose market
exists and is unresolved). -/
def openStakeSum (db : DB) (uid : String) : Int :=
  openSumAux db.bets (marketOpenL db.markets) uid

/-- The stored `total_staked` of a user (0 for an absent user, matching the
default of a fresh row). -/
def userTotalStaked (db : DB) (uid : String) : Int :=
  (findUser db.users uid).total_staked

/-- The spec invariant (section 8): every user's `total_staked` equals the
stake sum of their currently open bets. -/
def StakeInv (db : DB) : Prop :=
  ∀ uid, userTotalStaked db uid = openStakeSum db uid

/-- An externally triggered core operation. -/
inductive Op where
  | create (now : Int) (mid question creator : String) (deadline : Int)
  | bet (now : Int) (mid uid : String) (desired : Int) (prob : Rat)
  | resolve (now : Int) (mid : String) (outcome : Bool)
  deriving Repr, DecidableEq

/-- Forget an operation's result, keeping success/failure and the state. -/
def liftRes {α : Type} (pr : DB × Except Err α) : Except Err DB :=
  match pr.2 with
  | .ok _ => .ok pr.1
  | .error e => .error e

/-- Run one operation, failing if the operation fails. -/
def stepOp (op : Op) (db : DB) : Except Err DB :=
  match op with
  | .create now mid q c dl => liftRes (createMarketCmd now mid q c dl db)
  | .bet now mid uid d p => liftRes (placeBet now mid uid d p db)
  | .resolve now mid oc => liftRes (resolveMarket now mid oc db)

/-- Run a sequence of operations; the whole run fails if any operation
fails. -/
def runOps (db : DB) : List Op → Except Err DB
  | [] => .ok db
  | op :: ops =>
    match stepOp op db with
    | .error e => .error e
    | .ok db' => runOps db' ops

/-- Evaluate, after a successful run, whether a user's stored `total_staked`
agrees with the stake sum of their open bets (`none` if the run failed). -/
def stakeInvAfter (r : Except Err DB) (uid : String) : Option Bool :=
  match r with
  | .error _ => none
  | .ok db => some (decide (userTotalStaked db uid = openStakeSum db uid))

/-- The UNIQUE keys of the `bets` table. -/
def betKeys (bets : List BetRow) : List (String × String) :=
  bets.map (fun b => (b.market_id, b.user_id))

/-- Database well-formedness maintained by the schema: the UNIQUE constraint
on `(market_id, user_id)` and the foreign key from bets to markets. -/
def SchemaWF (db : DB) : Prop :=
  (betKeys db.bets).Nodup ∧ ∀ b ∈ db.bets, (findMarket db.markets b.market_id).isSome

/-! ## Concrete fixtures used by witnesses and counterexamples -/

/-- An unresolved, active market used in concrete scenarios. -/
def mkOpenMarket (mid : String) (dl : Int) (prob : Rat) (ts : Int) : Market :=
  { id := mid, question := "q", creator := "A", deadline := dl
    resolved := false, resolution := none, resolved_at := none
    probability := prob, total_stake := ts, active := true }

/-- Fixture for the resolution-atomicity analysis: market `m1` carrying two
bets, A with $50 at 0.8 and B with $30 at 0.4, stakes reserved in
`total_staked`. -/
def dbResolveDemo : DB :=
  { users := [("A", { defaultUser with total_staked := 50 }),
              ("B", { defaultUser with total_staked := 30 })]
    markets := [mkOpenMarket "m1" 100 (13/20) 80]
    bets := [{ market_id := "m1", user_id := "A", stake := 50, probability := 4/5 },
             { market_id := "m1", user_id := "B", stake := 30, probability := 2/5 }] }

/-- Operation trace breaking the open-stake invariant: create a market, bet on
it, resolve it, then bet on it again (the code accepts the last bet because it
checks only `active` and the deadline, not `resolved`). -/
def opsStakeGap : List Op :=
  [ .create 0 "m1" "q" "A" 100
  , .bet 1 "m1" "A" 40 (3/5)
  , .resolve 2 "m1" true
  , .bet 3 "m1" "A" 10 (1/2) ]

/-- Fixture for the insufficient-bankroll check: user A has $50 available. -/
def dbPoorUser : DB :=
  { users := [("A", { defaultUser with total_staked := 950 })]
    markets := [mkOpenMarket "m1" 100 (1/2) 0]
    bets := [] }

/-- Fixture for idempotent re-placement: user A already holds the only bet on
`m1`, $40 at 0.6, and the market state reflects it. -/
def dbRebet : DB :=
  { users := [("A", { defaultUser with total_staked := 40 })]
    markets := [mkOpenMarket "m1" 100 (3/5) 40]
    bets := [{ market_id := "m1", user_id := "A", stake := 40, probability := 3/5 }] }

/-- A freshly created market `m1` in an otherwise empty database. -/
def dbFreshMarket : DB :=
  { users := [], markets := [mkOpenMarket "m1" 100 (1/2) 0], bets := [] }

/-- The stake-weighted mean of a bet list's probabilities (the spec's
definition of what a market's stored probability always equals). -/
def stakeWeightedMean (bs : List BetRow) : Rat :=
  ((bs.map (fun b => (b.stake : Rat) * b.probability)).sum)
    / ((bs.map (fun b => (b.stake : Rat))).sum)

/-- The new market probability as the database variants compute it
(`src/index.js` lines 250-264): the user's own old bet is filtered out of the
input lists and the correction terms are zero. -/
def dbVariantProb (bets : List BetRow) (uid : String) (s p : Rat) : Rat :=
  updateMarketProbability
    ((bets.filter (fun b => !(b.user_id == uid))).map
      (fun b => ((b.stake : Rat), b.probability)))
    s p 0 0

/-- The new market probability as the in-memory variant computes it
(`src/unnamed/part_000` lines 1263-1275): the full bet list including the
user's old bet, with `old_bet?.stake || 0` and `old_bet?.probability || 0` as
subtract-correction terms. -/
def memVariantProb (bets : List BetRow) (uid : String) (s p : Rat) : Rat :=
  updateMarketProbability (bets.map (fun b => ((b.stake : Rat), b.probability))) s p
    (match bets.find? (fun b => b.user_id == uid) with
     | some b => (b.stake : Rat)
     | none => 0)
    (match bets.find? (fun b => b.user_id == uid) with
     | some b => b.probability
     | none => 0)

/-! ## Reachable states with bets only on unresolved markets -/

/-- States reachable from the empty database by successful operations, where
every successful bet placement happens on a market that is (found and)
unresolved at that moment.  The side condition on `bet` is the one amendment
the counterexample below forces: the code itself accepts bets on markets that
are already resolved (it only checks `active` and the deadline). -/
inductive ReachesOpenBets : DB → Prop where
  | init : ReachesOpenBets initDB
  | create (db db' : DB) (now : Int) (mid q c : String) (dl : Int) :
      ReachesOpenBets db → stepOp (.create now mid q c dl) db = .ok db' →
      ReachesOpenBets db'
  | bet (db db' : DB) (now : Int) (mid uid : String) (d : Int) (p : Rat) :
      ReachesOpenBets db → marketOpen db mid = true →
      stepOp (.bet now mid uid d p) db = .ok db' → ReachesOpenBets db'
  | resolve (db db' : DB) (now : Int) (mid : String) (oc : Bool) :
      ReachesOpenBets db → stepOp (.resolve now mid oc) db = .ok db' →
      ReachesOpenBets db'

end SlackMarket

namespace SlackMarket

/-! ## Generic list lemmas -/

theorem find?_map_keyed {α : Type} (g : α → α) (p : α → Bool)
    (hp : ∀ a, p (g a) = p a) (l : List α) :
    (l.map g).find? p = (l.find? p).map g := by
  induction l with
  | nil => simp
  | cons a t ih =>
    cases h : p a with
    | true =>
      rw [List.map_cons, List.find?_cons_of_pos _ (by rw [hp]; exact h),
        List.find?_cons_of_pos _ h]
      rfl
    | false =>
      rw [List.map_cons, List.find?_cons_of_neg _ (by rw [hp]; simp [h]),
        List.find?_cons_of_neg _ (by simp [h]), ih]

theorem map_sum_sub {α : Type} (l : List α) (f g : α → Int) :
    (l.map (fun x => f x - g x)).sum = (l.map f).sum - (l.map g).sum := by
  induction l with
  | nil => simp
  | cons a t ih => simp only [List.map_cons, List.sum_cons, ih]; ring

/-! ## Lookup / update lemmas for the three tables -/

theorem getUser_markets (db : DB) (uid : String) :
    (getUser db uid).2.markets = db.markets := by
  unfold getUser
  cases h : db.users.find? (fun x => x.1 == uid) <;> simp

theorem getUser_bets (db : DB) (uid : String) :
    (getUser db uid).2.bets = db.bets := by
  unfold getUser
  cases h : db.users.find? (fun x => x.1 == uid) <;> simp

theorem getUser_fst (db : DB) (uid : String) :
    (getUser db uid).1 = findUser db.users uid := by
  unfold getUser findUser
  cases h : db.users.find? (fun x => x.1 == uid) <;> simp [h]

theorem getUser_findUser (db : DB) (uid v : String) :
    findUser (getUser db uid).2.users v = findUser db.users v := by
  unfold getUser
  cases h : db.users.find? (fun x => x.1 == uid) with
  | some x => rfl
  | none =>
    unfold findUser
    simp only [List.find?_append]
    cases h2 : db.users.find? (fun x => x.1 == v) with
    | some y => simp
    | none =>
      by_cases hv : v = uid
      · subst hv
        rw [h2] at h
        simp [h]
      · simp [List.find?_cons, show (uid == v) = false by simpa using fun e => hv e.symm]

theorem getUser_present (db : DB) (uid : String) :
    ((getUser db uid).2.users.find? (fun x => x.1 == uid)).isSome := by
  unfold getUser
  cases h : db.users.find? (fun x => x.1 == uid) with
  | some x => simp [h]
  | none => simp [List.find?_append, h, List.find?_cons]

theorem findUser_updateUserRow_ne (us : List (String × User)) (uid v : String)
    (f : User → User) (h : v ≠ uid) :
    findUser (updateUserRow us uid f) v = findUser us v := by
  unfold findUser updateUserRow
  rw [find?_map_keyed _ _ (fun x => by by_cases hx : x.1 == uid <;> simp [hx])]
  cases hf : us.find? (fun x => x.1 == v) with
  | none => simp
  | some x =>
    have hx := List.find?_some hf
    simp only [beq_iff_eq] at hx
    simp [hx, h]

theorem findUser_updateUserRow_eq (us : List (String × User)) (uid : String)
    (f : User → User) (h : (us.find? (fun x => x.1 == uid)).isSome) :
    findUser (updateUserRow us uid f) uid = f (findUser us uid) := by
  unfold findUser updateUserRow
  rw [find?_map_keyed _ _ (fun x => by by_cases hx : x.1 == uid <;> simp [hx])]
  cases hf : us.find? (fun x => x.1 == uid) with
  | none => rw [hf] at h; simp at h
  | some x =>
    have hx := List.find?_some hf
    simp only [beq_iff_eq] at hx
    simp [hx]

theorem findMarket_updateMarketRow (ms : List Market) (mid mid' : String)
    (f : Market → Market) (hid : ∀ m, (f m).id = m.id) :
    findMarket (updateMarketRow ms mid f) mid' =
      (findMarket ms mid').map (fun m => if m.id == mid then f m else m) := by
  unfold findMarket updateMarketRow
  exact find?_map_keyed _ _ (fun m => by by_cases h : m.id == mid <;> simp [h, hid]) ms

theorem marketOpenL_update_preserve (ms : List Market) (mid : String)
    (f : Market → Market) (hid : ∀ m, (f m).id = m.id)
    (hres : ∀ m, (f m).resolved = m.resolved) (mid' : String) :
    marketOpenL (updateMarketRow ms mid f) mid' = marketOpenL ms mid' := by
  unfold marketOpenL
  rw [findMarket_updateMarketRow ms mid mid' f hid]
  cases h : findMarket ms mid' with
  | none => rfl
  | some m => by_cases hm : m.id = mid <;> simp [hm, hres]

theorem marketOpenL_update_close (ms : List Market) (mid : String)
    (f : Market → Market) (hid : ∀ m, (f m).id = m.id)
    (hres : ∀ m, (f m).resolved = true) (mid' : String) :
    marketOpenL (updateMarketRow ms mid f) mid' =
      if mid' = mid then false else marketOpenL ms mid' := by
  unfold marketOpenL
  rw [findMarket_updateMarketRow ms mid mid' f hid]
  cases h : findMarket ms mid' with
  | none => simp
  | some m =>
    have hmid' := List.find?_some (show List.find? (fun m => m.id == mid') ms = some m from h)
    simp only [beq_iff_eq] at hmid'
    by_cases hc : mid' = mid
    · simp [hmid', hc, hres]
    · have : ¬ m.id = mid := by rw [hmid']; exact hc
      simp [this, hc]

theorem findMarket_isSome_update (ms : List Market) (mid mid' : String)
    (f : Market → Market) (hid : ∀ m, (f m).id = m.id) :
    (findMarket (updateMarketRow ms mid f) mid').isSome = (findMarket ms mid').isSome := by
  rw [findMarket_updateMarketRow ms mid mid' f hid]
  cases h : findMarket ms mid' <;> simp

theorem findMarket_append_of_isSome (ms ms' : List Market) (mid : String)
    (h : (findMarket ms mid).isSome) :
    findMarket (ms ++ ms') mid = findMarket ms mid := by
  unfold findMarket at *
  rw [List.find?_append]
  cases hf : ms.find? (fun m => m.id == mid) with
  | none => rw [hf] at h; simp at h
  | some m => simp

theorem marketOpenL_append_of_isSome (ms ms' : List Market) (mid : String)
    (h : (findMarket ms mid).isSome) :
    marketOpenL (ms ++ ms') mid = marketOpenL ms mid := by
  unfold marketOpenL
  rw [findMarket_append_of_isSome ms ms' mid h]

/-! ## Open-stake sum lemmas -/

theorem openSumAux_congr (bets : List BetRow) (openb1 openb2 : String → Bool)
    (uid : String) (h : ∀ b ∈ bets, openb1 b.market_id = openb2 b.market_id) :
    openSumAux bets openb1 uid = openSumAux bets openb2 uid := by
  unfold openSumAux
  congr 1
  exact List.map_congr_left (fun b hb => by unfold betContrib; rw [h b hb])

theorem openSumAux_append (bets : List BetRow) (b : BetRow)
    (openb : String → Bool) (uid : String) :
    openSumAux (bets ++ [b]) openb uid
      = openSumAux bets openb uid + betContrib uid openb b := by
  unfold openSumAux
  simp

theorem openSumAux_close (bets : List BetRow) (openb : String → Bool)
    (mid uid : String) (hopen : openb mid = true) :
    openSumAux bets (fun x => if x = mid then false else openb x) uid =
      openSumAux bets openb uid -
        (bets.map (fun b => if b.user_id = uid ∧ b.market_id = mid
          then b.stake else 0)).sum := by
  unfold openSumAux
  rw [← map_sum_sub]
  congr 1
  apply List.map_congr_left
  intro b _
  unfold betContrib
  by_cases hm : b.market_id = mid
  · by_cases hu : b.user_id = uid <;> simp [hm, hu, hopen]
  · simp [hm]

theorem sum_over_marketBets (bets : List BetRow) (mid uid : String) :
    ((marketBets bets mid).map (fun b => if b.user_id = uid then b.stake else 0)).sum
      = (bets.map (fun b => if b.user_id = uid ∧ b.market_id = mid
          then b.stake else 0)).sum := by
  unfold marketBets
  induction bets with
  | nil => simp
  | cons a t ih =>
    by_cases hm : a.market_id = mid
    · rw [List.filter_cons_of_pos (by simp [hm])]
      simp only [List.map_cons, List.sum_cons, ih]
      congr 1
      by_cases hu : a.user_id = uid <;> simp [hu, hm]
    · rw [List.filter_cons_of_neg (by simp [hm])]
      simp only [List.map_cons, List.sum_cons, ih]
      simp [hm]

/-! ## Upsert lemmas -/

theorem betKey_iff (mid uid : String) (b : BetRow) :
    betKey mid uid b = true ↔ b.market_id = mid ∧ b.user_id = uid := by
  unfold betKey
  simp

theorem upsert_of_not_mem (bets : List BetRow) (mid uid : String) (s : Int) (p : Rat)
    (h : bets.any (betKey mid uid) = false) :
    upsertBet bets mid uid s p
      = bets ++ [{ market_id := mid, user_id := uid, stake := s, probability := p }] := by
  unfold upsertBet
  simp [h]

theorem upsert_of_mem (bets : List BetRow) (mid uid : String) (s : Int) (p : Rat)
    (h : bets.any (betKey mid uid) = true) :
    upsertBet bets mid uid s p
      = bets.map (fun b => if betKey mid uid b
          then { b with stake := s, probability := p } else b) := by
  unfold upsertBet
  simp [h]

theorem openSumAux_map_update (mid uid : String) (g : BetRow → BetRow)
    (openb : String → Bool) (v : String) :
    ∀ (bets : List BetRow), (betKeys bets).Nodup →
      ∀ b0 : BetRow, bets.find? (betKey mid uid) = some b0 →
      openSumAux (bets.map (fun b => if betKey mid uid b then g b else b)) openb v =
        openSumAux bets openb v - betContrib v openb b0 + betContrib v openb (g b0) := by
  intro bets
  induction bets with
  | nil => intro _ b0 hf; simp at hf
  | cons a t ih =>
    intro hnd b0 hf
    rw [betKeys, List.map_cons, List.nodup_cons] at hnd
    cases hk : betKey mid uid a with
    | true =>
      rw [List.find?_cons_of_pos _ hk] at hf
      have hab : b0 = a := by injection hf with hf'; exact hf'.symm
      subst hab
      have htail : ∀ x ∈ t, betKey mid uid x = false := by
        intro x hx
        cases hkx : betKey mid uid x with
        | false => rfl
        | true =>
          exfalso
          have h1 := (betKey_iff mid uid b0).mp hk
          have h2 := (betKey_iff mid uid x).mp hkx
          apply hnd.1
          have : (x.market_id, x.user_id) ∈ betKeys t :=
            List.mem_map_of_mem (fun b => (b.market_id, b.user_id)) hx
          rw [h2.1, h2.2, ← h1.1, ← h1.2] at this
          exact this
      have hmap : t.map (fun b => if betKey mid uid b then g b else b) = t := by
        calc t.map (fun b => if betKey mid uid b then g b else b)
            = t.map id := List.map_congr_left (fun x hx => by simp [htail x hx])
          _ = t := List.map_id t
      unfold openSumAux
      simp only [List.map_cons, List.sum_cons, hk, if_true, hmap]
      ring
    | false =>
      rw [List.find?_cons_of_neg _ (by simp [hk])] at hf
      have := ih hnd.2 b0 hf
      unfold openSumAux at this ⊢
      simp only [List.map_cons, List.sum_cons, hk, if_neg Bool.false_ne_true]
      rw [this]
      ring

theorem betKeys_upsert (bets : List BetRow) (mid uid : String) (s : Int) (p : Rat)
    (hnd : (betKeys bets).Nodup) :
    (betKeys (upsertBet bets mid uid s p)).Nodup := by
  by_cases h : bets.any (betKey mid uid) = true
  · rw [upsert_of_mem bets mid uid s p h]
    have : betKeys (bets.map (fun b => if betKey mid uid b
        then { b with stake := s, probability := p } else b)) = betKeys bets := by
      unfold betKeys
      rw [List.map_map]
      apply List.map_congr_left
      intro b _
      by_cases hb : betKey mid uid b = true <;> simp [hb]
    rw [this]
    exact hnd
  · rw [upsert_of_not_mem bets mid uid s p (by simpa using h)]
    unfold betKeys
    rw [List.map_append]
    rw [List.nodup_append]
    refine ⟨hnd, by simp, ?_⟩
    intro k hk hk2
    simp only [List.map_cons, List.map_nil, List.mem_singleton] at hk2
    subst hk2
    apply h
    rcases List.mem_map.mp hk with ⟨b, hb, hbk⟩
    rw [List.any_eq_true]
    refine ⟨b, hb, ?_⟩
    rw [betKey_iff]
    exact ⟨congrArg Prod.fst hbk, congrArg Prod.snd hbk⟩

/-! ## Settlement-fold lemmas -/

theorem resolveUserStep_markets (o : Bool) (b : BetRow) (db : DB) :
    (resolveUserStep o b db).markets = db.markets := by
  unfold resolveUserStep
  cases hg : getUser db b.user_id with
  | mk user db1 =>
    have h := getUser_markets db b.user_id
    rw [hg] at h
    simpa using h

theorem resolveUserStep_bets (o : Bool) (b : BetRow) (db : DB) :
    (resolveUserStep o b db).bets = db.bets := by
  unfold resolveUserStep
  cases hg : getUser db b.user_id with
  | mk user db1 =>
    have h := getUser_bets db b.user_id
    rw [hg] at h
    simpa using h

theorem resolveUserStep_TS (o : Bool) (b : BetRow) (db : DB) (v : String) :
    (findUser (resolveUserStep o b db).users v).total_staked
      = (findUser db.users v).total_staked - (if b.user_id = v then b.stake else 0) := by
  unfold resolveUserStep
  cases hg : getUser db b.user_id with
  | mk user db1 =>
    simp only
    by_cases hv : v = b.user_id
    · rw [hv]
      have hpres : ((db1.users).find? (fun x => x.1 == b.user_id)).isSome := by
        have h := getUser_present db b.user_id
        rw [hg] at h
        simpa using h
      rw [findUser_updateUserRow_eq db1.users b.user_id _ hpres]
      have huser : user = findUser db.users b.user_id := by
        have h := getUser_fst db b.user_id
        rw [hg] at h
        simpa using h
      have hts : (settleUser o b user).total_staked = user.total_staked - b.stake := rfl
      rw [hts, huser]
      simp
    · rw [findUser_updateUserRow_ne db1.users b.user_id v _ hv]
      have h := getUser_findUser db b.user_id v
      rw [hg] at h
      simp only at h
      rw [h]
      rw [if_neg (fun e => hv e.symm)]
      ring

theorem settleAll_markets (o : Bool) (bs : List BetRow) (db : DB) :
    (settleAll o bs db).markets = db.markets := by
  induction bs generalizing db with
  | nil => rfl
  | cons b t ih =>
    unfold settleAll at ih ⊢
    rw [List.foldl_cons, ih, resolveUserStep_markets]

theorem settleAll_bets (o : Bool) (bs : List BetRow) (db : DB) :
    (settleAll o bs db).bets = db.bets := by
  induction bs generalizing db with
  | nil => rfl
  | cons b t ih =>
    unfold settleAll at ih ⊢
    rw [List.foldl_cons, ih, resolveUserStep_bets]

theorem settleAll_TS (o : Bool) (bs : List BetRow) (db : DB) (v : String) :
    (findUser (settleAll o bs db).users v).total_staked
      = (findUser db.users v).total_staked
        - (bs.map (fun b => if b.user_id = v then b.stake else 0)).sum := by
  induction bs generalizing db with
  | nil => simp [settleAll]
  | cons b t ih =>
    unfold settleAll at ih ⊢
    rw [List.foldl_cons]
    rw [ih (resolveUserStep o b db)]
    rw [resolveUserStep_TS]
    simp only [List.map_cons, List.sum_cons]
    ring

/-! ## Success-shape lemmas for the three operations -/

theorem placeBet_success_eq (now : Int) (mid uid : String) (d : Int) (p : Rat)
    (db : DB) (market : Market)
    (hp : ¬(p < 0 ∨ 1 < p)) (hm : findMarket db.markets mid = some market)
    (ha : ¬ market.active = false) (hdl : ¬ market.deadline < now)
    (hb : ¬ availableBankroll db mid uid < calculateStake d) :
    placeBet now mid uid d p db =
      (placeBetApply (getUser db uid).2 market mid uid (getUser db uid).1
         (calculateStake d) p,
       .ok { stake_placed := calculateStake d
             new_market_probability :=
               newProbOf (getUser db uid).2.bets mid uid (calculateStake d) p
             was_capped := decide (calculateStake d < d) }) := by
  simp only [placeBet, hm, if_neg hp, if_neg ha, if_neg hdl, if_neg hb]

theorem placeBet_ok_shape (now : Int) (mid uid : String) (d : Int) (p : Rat)
    (db : DB) (r : PlaceBetResult)
    (h : (placeBet now mid uid d p db).2 = .ok r) :
    ∃ market, findMarket db.markets mid = some market ∧
      (placeBet now mid uid d p db).1 =
        placeBetApply (getUser db uid).2 market mid uid (getUser db uid).1
          (calculateStake d) p := by
  by_cases hp : p < 0 ∨ 1 < p
  · simp only [placeBet, if_pos hp] at h
    simp at h
  cases hm : findMarket db.markets mid with
  | none =>
    simp only [placeBet, if_neg hp, hm] at h
    simp at h
  | some market =>
    by_cases ha : market.active = false
    · simp only [placeBet, if_neg hp, hm, if_pos ha] at h
      simp at h
    by_cases hdl : market.deadline < now
    · simp only [placeBet, if_neg hp, hm, if_neg ha, if_pos hdl] at h
      simp at h
    by_cases hb : availableBankroll db mid uid < calculateStake d
    · simp only [placeBet, if_neg hp, hm, if_neg ha, if_neg hdl, if_pos hb] at h
      simp at h
    refine ⟨market, rfl, ?_⟩
    rw [placeBet_success_eq now mid uid d p db market hp hm ha hdl hb]

theorem resolveMarket_success_eq (now : Int) (mid : String) (oc : Bool) (db : DB)
    (market : Market) (hm : findMarket db.markets mid = some market)
    (hres : ¬ market.resolved = true)
    (hne : ¬ (marketBets db.bets mid).isEmpty = true) :
    resolveMarket now mid oc db = (resolveApply now mid oc db, .ok ()) := by
  simp only [resolveMarket, hm, if_neg hres, if_neg hne]

theorem resolveMarket_ok_shape (now : Int) (mid : String) (oc : Bool) (db : DB)
    (h : (resolveMarket now mid oc db).2 = .ok ()) :
    ∃ market, findMarket db.markets mid = some market ∧ market.resolved = false ∧
      (resolveMarket now mid oc db).1 = resolveApply now mid oc db := by
  cases hm : findMarket db.markets mid with
  | none =>
    simp only [resolveMarket, hm] at h
    simp at h
  | some market =>
    by_cases hres : market.resolved = true
    · simp only [resolveMarket, hm, if_pos hres] at h
      simp at h
    by_cases hne : (marketBets db.bets mid).isEmpty = true
    · simp only [resolveMarket, hm, if_neg hres, if_pos hne] at h
      simp at h
    refine ⟨market, rfl, by simpa using hres, ?_⟩
    rw [resolveMarket_success_eq now mid oc db market hm hres hne]

theorem createMarketCmd_success_eq (now : Int) (mid q c : String) (dl : Int)
    (db : DB) (hdl : ¬ dl < now) (hdup : ¬ (findMarket db.markets mid).isSome = true) :
    createMarketCmd now mid q c dl db =
      ({ db with markets := db.markets ++
          [{ id := mid, question := q, creator := c, deadline := dl
             resolved := false, resolution := none, resolved_at := none
             probability := 1/2, total_stake := 0, active := true }] },
       .ok ()) := by
  unfold createMarketCmd
  rw [if_neg hdl, if_neg hdup]

theorem createMarketCmd_ok_shape (now : Int) (mid q c : String) (dl : Int)
    (db : DB) (h : (createMarketCmd now mid q c dl db).2 = .ok ()) :
    ¬ (findMarket db.markets mid).isSome = true ∧
      (createMarketCmd now mid q c dl db).1 =
        { db with markets := db.markets ++
            [{ id := mid, question := q, creator := c, deadline := dl
               resolved := false, resolution := none, resolved_at := none
               probability := 1/2, total_stake := 0, active := true }] } := by
  by_cases hdl : dl < now
  · unfold createMarketCmd at h
    rw [if_pos hdl] at h
    simp at h
  by_cases hdup : (findMarket db.markets mid).isSome = true
  · unfold createMarketCmd at h
    rw [if_neg hdl, if_pos hdup] at h
    simp at h
  refine ⟨hdup, ?_⟩
  rw [createMarketCmd_success_eq now mid q c dl db hdl hdup]

theorem liftRes_ok {α : Type} (pr : DB × Except Err α) (db' : DB)
    (h : liftRes pr = .ok db') :
    db' = pr.1 ∧ ∃ a, pr.2 = .ok a := by
  unfold liftRes at h
  cases hp : pr.2 with
  | ok a =>
    rw [hp] at h
    exact ⟨by injection h with h; exact h.symm, a, rfl⟩
  | error e =>
    rw [hp] at h
    simp at h

/-! ## Preservation of the stake invariant by each operation -/

theorem placeBet_preserves (now : Int) (mid uid : String) (d : Int) (p : Rat)
    (db : DB) (r : PlaceBetResult) (hwf : SchemaWF db) (hinv : StakeInv db)
    (hopen : marketOpen db mid = true)
    (h : (placeBet now mid uid d p db).2 = .ok r) :
    SchemaWF (placeBet now mid uid d p db).1 ∧ StakeInv (placeBet now mid uid d p db).1 := by
  obtain ⟨market, hm, heq⟩ := placeBet_ok_shape now mid uid d p db r h
  rw [heq]
  have hopenL : marketOpenL db.markets mid = true := hopen
  have hb1 : (getUser db uid).2.bets = db.bets := getUser_bets db uid
  have hm1 : (getUser db uid).2.markets = db.markets := getUser_markets db uid
  have hfu : ∀ v, findUser (getUser db uid).2.users v = findUser db.users v :=
    getUser_findUser db uid
  have hpres : (((getUser db uid).2.users).find? (fun x => x.1 == uid)).isSome :=
    getUser_present db uid
  have huval : (getUser db uid).1 = findUser db.users uid := getUser_fst db uid
  simp only [placeBetApply, hb1, hm1]
  have hidf : ∀ m : Market,
      ({ m with probability := newProbOf db.bets mid uid (calculateStake d) p,
                total_stake := market.total_stake
                  - oldStakeOf db.bets mid uid + calculateStake d } : Market).id = m.id :=
    fun m => rfl
  have hresf : ∀ m : Market,
      ({ m with probability := newProbOf db.bets mid uid (calculateStake d) p,
                total_stake := market.total_stake
                  - oldStakeOf db.bets mid uid + calculateStake d } : Market).resolved
        = m.resolved :=
    fun m => rfl
  constructor
  · constructor
    · exact betKeys_upsert db.bets mid uid (calculateStake d) p hwf.1
    · intro b hb
      simp only [findMarket_isSome_update _ mid _ _ hidf]
      by_cases hany : db.bets.any (betKey mid uid) = true
      · rw [upsert_of_mem db.bets mid uid (calculateStake d) p hany] at hb
        rcases List.mem_map.mp hb with ⟨b0, hb0, hb0eq⟩
        have : b.market_id = b0.market_id := by
          rw [← hb0eq]
          by_cases hk : betKey mid uid b0 = true <;> simp [hk]
        rw [this]
        exact hwf.2 b0 hb0
      · rw [upsert_of_not_mem db.bets mid uid (calculateStake d) p (by simpa using hany)] at hb
        rcases List.mem_append.mp hb with hb' | hb'
        · exact hwf.2 b hb'
        · simp only [List.mem_singleton] at hb'
          subst hb'
          simp only
          rw [hm]
          rfl
  · intro v
    unfold userTotalStaked openStakeSum
    simp only
    have hopen2 : ∀ b' : List BetRow, ∀ bb ∈ b',
        marketOpenL (updateMarketRow db.markets mid
          (fun m => { m with
            probability := newProbOf db.bets mid uid (calculateStake d) p,
            total_stake := market.total_stake
              - oldStakeOf db.bets mid uid + calculateStake d })) bb.market_id
          = marketOpenL db.markets bb.market_id :=
      fun _ bb _ => marketOpenL_update_preserve db.markets mid _ hidf hresf bb.market_id
    rw [openSumAux_congr _ _ (marketOpenL db.markets) v (hopen2 _)]
    by_cases hv : v = uid
    · rw [hv]
      rw [findUser_updateUserRow_eq _ uid _ hpres]
      have hts : ((fun u : User => { u with total_staked :=
          (getUser db uid).1.total_staked
            + (calculateStake d - oldStakeOf db.bets mid uid) })
            (findUser (getUser db uid).2.users uid)).total_staked
          = (getUser db uid).1.total_staked
            + (calculateStake d - oldStakeOf db.bets mid uid) := rfl
      rw [hts, huval]
      by_cases hany : db.bets.any (betKey mid uid) = true
      · cases hf : db.bets.find? (betKey mid uid) with
        | none =>
          exfalso
          have := List.find?_isSome.mpr (List.any_eq_true.mp hany)
          rw [hf] at this
          simp at this
        | some b0 =>
          have hkey := (betKey_iff mid uid b0).mp (List.find?_some hf)
          rw [upsert_of_mem db.bets mid uid (calculateStake d) p hany]
          rw [openSumAux_map_update mid uid _ _ uid db.bets hwf.1 b0 hf]
          have hc0 : betContrib uid (marketOpenL db.markets) b0 = b0.stake := by
            simp [betContrib, hkey.1, hkey.2, hopenL]
          have hc1 : betContrib uid (marketOpenL db.markets)
              ({ b0 with stake := calculateStake d, probability := p }) = calculateStake d := by
            simp [betContrib, hkey.1, hkey.2, hopenL]
          have hold : oldStakeOf db.bets mid uid = b0.stake := by
            unfold oldStakeOf oldBetOf
            rw [hf]
          rw [hc0, hc1, hold]
          have := hinv uid
          unfold userTotalStaked openStakeSum at this
          rw [this]
          ring
      · rw [upsert_of_not_mem db.bets mid uid (calculateStake d) p (by simpa using hany)]
        rw [openSumAux_append]
        have hold : oldStakeOf db.bets mid uid = 0 := by
          unfold oldStakeOf oldBetOf
          cases hf : db.bets.find? (betKey mid uid) with
          | none => rfl
          | some b0 =>
            exfalso
            apply hany
            rw [List.any_eq_true]
            exact ⟨b0, List.mem_of_find?_eq_some hf, List.find?_some hf⟩
        have hcn : betContrib uid (marketOpenL db.markets)
            ({ market_id := mid, user_id := uid, stake := calculateStake d,
               probability := p } : BetRow) = calculateStake d := by
          simp [betContrib, hopenL]
        rw [hcn, hold]
        have := hinv uid
        unfold userTotalStaked openStakeSum at this
        rw [this]
        ring
    · rw [findUser_updateUserRow_ne _ uid v _ hv, hfu v]
      by_cases hany : db.bets.any (betKey mid uid) = true
      · cases hf : db.bets.find? (betKey mid uid) with
        | none =>
          exfalso
          have := List.find?_isSome.mpr (List.any_eq_true.mp hany)
          rw [hf] at this
          simp at this
        | some b0 =>
          have hkey := (betKey_iff mid uid b0).mp (List.find?_some hf)
          rw [upsert_of_mem db.bets mid uid (calculateStake d) p hany]
          rw [openSumAux_map_update mid uid _ _ v db.bets hwf.1 b0 hf]
          have hc0 : betContrib v (marketOpenL db.markets) b0 = 0 := by
            unfold betContrib
            rw [if_neg (fun hh => hv (by rw [← hh.1, hkey.2]))]
          have hc1 : betContrib v (marketOpenL db.markets)
              ({ b0 with stake := calculateStake d, probability := p }) = 0 := by
            unfold betContrib
            simp only
            rw [if_neg (fun hh => hv (by rw [← hh.1, hkey.2]))]
          rw [hc0, hc1]
          have := hinv v
          unfold userTotalStaked openStakeSum at this
          rw [this]
          ring
      · rw [upsert_of_not_mem db.bets mid uid (calculateStake d) p (by simpa using hany)]
        rw [openSumAux_append]
        have hcn : betContrib v (marketOpenL db.markets)
            ({ market_id := mid, user_id := uid, stake := calculateStake d,
               probability := p } : BetRow) = 0 := by
          unfold betContrib
          simp only
          rw [if_neg (fun hh => hv (by rw [← hh.1]))]
        rw [hcn]
        have := hinv v
        unfold userTotalStaked openStakeSum at this
        rw [this]
        ring

theorem resolveMarket_preserves (now : Int) (mid : String) (oc : Bool) (db : DB)
    (hwf : SchemaWF db) (hinv : StakeInv db)
    (h : (resolveMarket now mid oc db).2 = .ok ()) :
    SchemaWF (resolveMarket now mid oc db).1 ∧ StakeInv (resolveMarket now mid oc db).1 := by
  obtain ⟨market, hm, hres, heq⟩ := resolveMarket_ok_shape now mid oc db h
  rw [heq]
  have hidf : ∀ m : Market,
      ({ m with resolved := true, resolution := some oc,
                resolved_at := some now } : Market).id = m.id :=
    fun m => rfl
  have hresf : ∀ m : Market,
      ({ m with resolved := true, resolution := some oc,
                resolved_at := some now } : Market).resolved = true :=
    fun m => rfl
  have hb : (resolveApply now mid oc db).bets = db.bets := by
    simp [resolveApply, settleAll_bets]
  have hmarks : (resolveApply now mid oc db).markets
      = updateMarketRow db.markets mid
          (fun m => { m with resolved := true, resolution := some oc,
                             resolved_at := some now }) := by
    simp [resolveApply, settleAll_markets]
  have husers : (resolveApply now mid oc db).users
      = (settleAll oc (marketBets db.bets mid) db).users := by
    simp [resolveApply]
  have hopenm : marketOpenL db.markets mid = true := by
    unfold marketOpenL
    rw [hm]
    simp [hres]
  constructor
  · constructor
    · rw [hb]
      exact hwf.1
    · intro b hbmem
      rw [hb] at hbmem
      rw [hmarks, findMarket_isSome_update _ mid _ _ hidf]
      exact hwf.2 b hbmem
  · intro v
    unfold userTotalStaked openStakeSum
    rw [hb, hmarks, husers]
    have hsettle := settleAll_TS oc (marketBets db.bets mid) db v
    rw [hsettle]
    have hcong : openSumAux db.bets
        (marketOpenL (updateMarketRow db.markets mid
          (fun m => { m with resolved := true, resolution := some oc,
                             resolved_at := some now }))) v
        = openSumAux db.bets
            (fun x => if x = mid then false else marketOpenL db.markets x) v := by
      apply openSumAux_congr
      intro b _
      exact marketOpenL_update_close db.markets mid _ hidf hresf b.market_id
    rw [hcong]
    rw [openSumAux_close db.bets (marketOpenL db.markets) mid v hopenm]
    rw [← sum_over_marketBets db.bets mid v]
    have := hinv v
    unfold userTotalStaked openStakeSum at this
    rw [this]

theorem createMarketCmd_preserves (now : Int) (mid q c : String) (dl : Int) (db : DB)
    (hwf : SchemaWF db) (hinv : StakeInv db)
    (h : (createMarketCmd now mid q c dl db).2 = .ok ()) :
    SchemaWF (createMarketCmd now mid q c dl db).1
      ∧ StakeInv (createMarketCmd now mid q c dl db).1 := by
  obtain ⟨hdup, heq⟩ := createMarketCmd_ok_shape now mid q c dl db h
  rw [heq]
  constructor
  · constructor
    · exact hwf.1
    · intro b hbmem
      simp only
      rw [findMarket_append_of_isSome db.markets _ b.market_id (hwf.2 b hbmem)]
      exact hwf.2 b hbmem
  · intro v
    unfold userTotalStaked openStakeSum
    simp only
    have hcong : openSumAux db.bets
        (marketOpenL (db.markets ++
          [{ id := mid, question := q, creator := c, deadline := dl
             resolved := false, resolution := none, resolved_at := none
             probability := 1/2, total_stake := 0, active := true }])) v
        = openSumAux db.bets (marketOpenL db.markets) v := by
      apply openSumAux_congr
      intro b hbmem
      exact marketOpenL_append_of_isSome db.markets _ b.market_id (hwf.2 b hbmem)
    rw [hcong]
    exact hinv v

theorem reachesOpenBets_wf_inv (db : DB) (h : ReachesOpenBets db) :
    SchemaWF db ∧ StakeInv db := by
  induction h with
  | init =>
    constructor
    · exact ⟨List.nodup_nil, fun b hb => by simp [initDB] at hb⟩
    · intro v
      rfl
  | create db0 db' now mid q c dl _ hstep ih =>
    obtain ⟨hfst, _, hok⟩ := liftRes_ok _ db' hstep
    subst hfst
    exact createMarketCmd_preserves now mid q c dl db0 ih.1 ih.2 hok
  | bet db0 db' now mid uid d p _ hopen hstep ih =>
    obtain ⟨hfst, r, hok⟩ := liftRes_ok _ db' hstep
    subst hfst
    exact placeBet_preserves now mid uid d p db0 r ih.1 ih.2 hopen hok
  | resolve db0 db' now mid oc _ hstep ih =>
    obtain ⟨hfst, u, hok⟩ := liftRes_ok _ db' hstep
    subst hfst
    cases u
    exact resolveMarket_preserves now mid oc db0 ih.1 ih.2 hok

/-! ## Per-market user uniqueness and sum splitting -/

theorem marketBets_users_nodup (bets : List BetRow) (mid : String)
    (hnd : (betKeys bets).Nodup) :
    ((marketBets bets mid).map (fun b => b.user_id)).Nodup := by
  induction bets with
  | nil => simp [marketBets]
  | cons a t ih =>
    rw [betKeys, List.map_cons, List.nodup_cons] at hnd
    unfold marketBets at ih ⊢
    by_cases hm : a.market_id = mid
    · rw [List.filter_cons_of_pos (by simp [hm])]
      rw [List.map_cons, List.nodup_cons]
      refine ⟨?_, ih hnd.2⟩
      intro hmem
      rcases List.mem_map.mp hmem with ⟨x, hx, hxu⟩
      have hxt := List.mem_of_mem_filter hx
      have hxm : x.market_id = mid := by
        have := List.of_mem_filter hx
        simpa using this
      apply hnd.1
      have : (x.market_id, x.user_id) ∈ List.map (fun b => (b.market_id, b.user_id)) t :=
        List.mem_map_of_mem _ hxt
      rw [hxm, hxu, ← hm] at this
      exact this
    · rw [List.filter_cons_of_neg (by simp [hm])]
      exact ih hnd.2

theorem sum_split_user (uid : String) (f : BetRow → Rat) :
    ∀ (l : List BetRow), ((l.map (fun x => x.user_id)).Nodup) →
      ∀ b ∈ l, b.user_id = uid →
      (l.map f).sum = ((l.filter (fun x => !(x.user_id == uid))).map f).sum + f b := by
  intro l
  induction l with
  | nil => intro _ b hb; cases hb
  | cons a t ih =>
    intro hnd b hb huid
    rw [List.map_cons, List.nodup_cons] at hnd
    rcases List.mem_cons.mp hb with hba | hbt
    · subst hba
      rw [List.filter_cons_of_neg (by simp [huid])]
      have hfilter : t.filter (fun x => !(x.user_id == uid)) = t := by
        apply List.filter_eq_self.mpr
        intro x hx
        simp only [Bool.not_eq_eq_eq_not, Bool.not_true, beq_eq_false_iff_ne, ne_eq]
        intro hxu
        apply hnd.1
        rw [huid, ← hxu]
        exact List.mem_map_of_mem _ hx
      rw [hfilter]
      simp only [List.map_cons, List.sum_cons]
      ring
    · have hau : ¬ a.user_id = uid := by
        intro hau
        apply hnd.1
        rw [hau, ← huid]
        exact List.mem_map_of_mem _ hbt
      rw [List.filter_cons_of_pos (by simp [hau])]
      simp only [List.map_cons, List.sum_cons]
      rw [ih hnd.2 b hbt huid]
      ring

theorem eq_nil_of_one_le_of_sum_eq_zero (l : List Rat)
    (h1 : ∀ x ∈ l, 1 ≤ x) (h0 : l.sum = 0) : l = [] := by
  cases l with
  | nil => rfl
  | cons a t =>
    exfalso
    have ha : 1 ≤ a := h1 a (List.mem_cons_self a t)
    have ht : 0 ≤ t.sum :=
      List.sum_nonneg (fun x hx => le_trans zero_le_one (h1 x (List.mem_cons_of_mem a hx)))
    rw [List.sum_cons] at h0
    linarith

/-! ## Claim theorems -/

/-- Claim C1: with zero correction terms, `updateMarketProbability` returns
`newProb` exactly when the other stakes sum to zero, and otherwise the
stake-weighted average `(sum(stake_i * prob_i) + newStake * newProb) /
(sum(stake_i) + newStake)`; in particular a first bet of stake 30 at
probability 0.7 on an empty market prices it at exactly 0.7.  (Stakes at every
call site are non-negative integers and the new stake is clamped to at least
1, which the hypotheses record.) -/
theorem C1_first_bet_and_weighted_average (bets : List (Rat × Rat)) (s p : Rat)
    (hs : 1 ≤ s) (hb : ∀ b ∈ bets, 0 ≤ b.1) :
    ((bets.map Prod.fst).sum = 0 → updateMarketProbability bets s p 0 0 = p) ∧
    ((bets.map Prod.fst).sum ≠ 0 →
      updateMarketProbability bets s p 0 0 =
        ((bets.map (fun b => b.1 * b.2)).sum + s * p)
          / ((bets.map Prod.fst).sum + s)) ∧
    updateMarketProbability [] 30 (7/10) 0 0 = 7/10 := by
  refine ⟨fun h => ?_, fun h => ?_, by norm_num [updateMarketProbability]⟩
  · simp [updateMarketProbability, h]
  · have hT : 0 ≤ (bets.map Prod.fst).sum := by
      apply List.sum_nonneg
      intro x hx
      rcases List.mem_map.mp hx with ⟨b, hbm, hbe⟩
      rw [← hbe]
      exact hb b hbm
    have hTpos : 0 < (bets.map Prod.fst).sum := lt_of_le_of_ne hT (Ne.symm h)
    have hnt : ¬ ((bets.map Prod.fst).sum - 0 + s = 0) := by
      intro hc
      rw [sub_zero] at hc
      linarith
    simp only [updateMarketProbability]
    rw [if_neg h, if_neg hnt]
    rw [sub_zero, zero_mul, sub_zero]

/-- Witness for C1: a concrete first bet on an empty market. -/
theorem C1_witness : updateMarketProbability [] 5 (1/3) 0 0 = 1/3 :=
  (C1_first_bet_and_weighted_average [] 5 (1/3) (by norm_num)
    (by intro b hb; cases hb)).1 (by simp)

/-- Claim C10: for non-negative other stakes with probabilities in `[0,1]`, a
clamped new stake (at least 1) and a new probability in `[0,1]`, the
probability computed with zero correction terms stays in `[0,1]`. -/
theorem C10_probability_stays_in_unit_interval (bets : List (Rat × Rat)) (s p : Rat)
    (hb : ∀ b ∈ bets, 0 ≤ b.1 ∧ 0 ≤ b.2 ∧ b.2 ≤ 1) (hs : 1 ≤ s)
    (hp0 : 0 ≤ p) (hp1 : p ≤ 1) :
    0 ≤ updateMarketProbability bets s p 0 0
      ∧ updateMarketProbability bets s p 0 0 ≤ 1 := by
  have hT : 0 ≤ (bets.map Prod.fst).sum := by
    apply List.sum_nonneg
    intro x hx
    rcases List.mem_map.mp hx with ⟨b, hbm, hbe⟩
    rw [← hbe]
    exact (hb b hbm).1
  by_cases h : (bets.map Prod.fst).sum = 0
  · constructor <;> simp [updateMarketProbability, h, hp0, hp1]
  · have hTpos : 0 < (bets.map Prod.fst).sum := lt_of_le_of_ne hT (Ne.symm h)
    have hnt : ¬ ((bets.map Prod.fst).sum - 0 + s = 0) := by
      intro hc
      rw [sub_zero] at hc
      linarith
    have hW0 : 0 ≤ (bets.map (fun b => b.1 * b.2)).sum := by
      apply List.sum_nonneg
      intro x hx
      rcases List.mem_map.mp hx with ⟨b, hbm, hbe⟩
      rw [← hbe]
      exact mul_nonneg (hb b hbm).1 (hb b hbm).2.1
    have hW1 : (bets.map (fun b => b.1 * b.2)).sum ≤ (bets.map Prod.fst).sum := by
      apply List.sum_le_sum
      intro b hbm
      exact mul_le_of_le_one_right (hb b hbm).1 (hb b hbm).2.2
    simp only [updateMarketProbability]
    rw [if_neg h, if_neg hnt, sub_zero, zero_mul, sub_zero]
    constructor
    · apply div_nonneg
      · have : 0 ≤ s * p := mul_nonneg (by linarith) hp0
        linarith
      · linarith
    · rw [div_le_one (by linarith)]
      have : s * p ≤ s := mul_le_of_le_one_right (by linarith) hp1
      linarith

/-- Witness for C10 at a concrete call. -/
theorem C10_witness :
    0 ≤ updateMarketProbability [((30:Rat), 7/10)] 50 (1/4) 0 0
      ∧ updateMarketProbability [((30:Rat), 7/10)] 50 (1/4) 0 0 ≤ 1 :=
  C10_probability_stays_in_unit_interval [((30:Rat), 7/10)] 50 (1/4)
    (by intro b hb; simp only [List.mem_singleton] at hb; subst hb; norm_num)
    (by norm_num) (by norm_num) (by norm_num)

/-- Claim C4: the resolution payout is `floor(stake * (1 + accuracy))` with
`accuracy = probability` on YES and `1 - probability` on NO; it never drops
below the stake, a fully confident correct bet exactly doubles the stake, and
stake 50 at probability 0.8 pays 90 on YES and 60 on NO. -/
theorem C4_payout_formula_and_no_loss (outcome : Bool) (stake : Int) (p : Rat)
    (hs1 : 1 ≤ stake) (hs2 : stake ≤ 100) (hp0 : 0 ≤ p) (hp1 : p ≤ 1) :
    betPayout outcome stake p = ⌊(stake : Rat) * (1 + betAccuracy outcome p)⌋ ∧
    stake ≤ betPayout outcome stake p ∧
    betPayout true stake 1 = 2 * stake ∧
    betPayout true 50 (4/5) = 90 ∧
    betPayout false 50 (4/5) = 60 := by
  have hacc : 0 ≤ betAccuracy outcome p := by
    unfold betAccuracy
    cases outcome <;> simp <;> linarith
  refine ⟨rfl, ?_, ?_, by norm_num [betPayout, betAccuracy], by norm_num [betPayout, betAccuracy]⟩
  · unfold betPayout
    rw [Int.le_floor]
    have hcast : (1:Rat) ≤ (stake : Rat) := by exact_mod_cast hs1
    nlinarith
  · have h2 : ((stake:Rat) * (1 + betAccuracy true 1)) = ((2 * stake : Int) : Rat) := by
      rw [show betAccuracy true 1 = 1 from rfl]
      push_cast
      ring
    unfold betPayout
    rw [h2, Int.floor_intCast]

/-- Witness for C4 at stake 50, probability 0.8, outcome NO. -/
theorem C4_witness : (50:Int) ≤ betPayout false 50 (4/5) :=
  (C4_payout_formula_and_no_loss false 50 (4/5)
    (by norm_num) (by norm_num) (by norm_num) (by norm_num)).2.1

/-- Claim C8: a bet at probability exactly 0.5 is directionally neither
correct nor incorrect: `wasCorrect` is false under either outcome, so
settlement leaves `bets_won` unchanged, increments `bets_placed`, and resets
`prediction_streak` to 0. -/
theorem C8_half_probability_is_neutral (outcome : Bool) (mid uid : String)
    (s : Int) (u : User) :
    wasCorrect outcome (1/2) = false ∧
    (settleUser outcome
      { market_id := mid, user_id := uid, stake := s, probability := 1/2 } u).bets_won
      = u.bets_won ∧
    (settleUser outcome
      { market_id := mid, user_id := uid, stake := s, probability := 1/2 } u).bets_placed
      = u.bets_placed + 1 ∧
    (settleUser outcome
      { market_id := mid, user_id := uid, stake := s, probability := 1/2 } u).prediction_streak
      = 0 := by
  refine ⟨?_, ?_, ?_, ?_⟩ <;> cases outcome <;>
    simp [wasCorrect, settleUser]

/-- Claim C9 counterexample: a deadline exactly equal to the creation instant
is NOT strictly in the future, yet `createMarketCmd` accepts it (the code
checks `deadline < new Date()`, not `<=`), so the claim "fails with
InvalidDeadline whenever the deadline is not strictly in the future" is false. -/
theorem C9_counterexample :
    createMarketCmd 0 "m1" "q" "A" 0 initDB =
      ({ users := [], markets := [mkOpenMarket "m1" 0 (1/2) 0], bets := [] },
       .ok ()) := by
  norm_num [createMarketCmd, findMarket, initDB, mkOpenMarket]

/-- Claim C9 (amended): market creation fails with `InvalidDeadline` exactly
when the deadline is strictly before the creation instant; consequently a
market is only ever created with a deadline at or after (not strictly after)
its creation instant. -/
theorem C9_amended_deadline_check (now : Int) (mid q c : String) (dl : Int)
    (db : DB) :
    (dl < now → createMarketCmd now mid q c dl db = (db, .error .InvalidDeadline)) ∧
    ((createMarketCmd now mid q c dl db).2 = .ok () → now ≤ dl) := by
  constructor
  · intro h
    unfold createMarketCmd
    rw [if_pos h]
  · intro h
    by_cases h1 : dl < now
    · unfold createMarketCmd at h
      rw [if_pos h1] at h
      simp at h
    · omega

/-- Witness for the amended C9: a past deadline is rejected. -/
theorem C9_witness :
    createMarketCmd 5 "m1" "q" "A" 2 initDB = (initDB, .error .InvalidDeadline) :=
  (C9_amended_deadline_check 5 "m1" "q" "A" 2 initDB).1 (by norm_num)

/-- Claim C2 (code bug): the resolve branch issues one auto-committing
`UPDATE users` per bettor and a separate `UPDATE markets`, with no enclosing
transaction.  If the run stops after the first bettor's update (the second
`UPDATE` fails), the database shows A already paid ($1090), B unpaid ($1000,
stake still reserved) and the market still unresolved --- exactly the
partially applied resolution the claim says is never observable.  (For
contrast, the last conjunct shows the completed resolution paying B $42.) -/
theorem C2_partial_resolution_observable :
    (findUser (resolveUserStep true
      { market_id := "m1", user_id := "A", stake := 50, probability := 4/5 }
      dbResolveDemo).users "A").bankroll = 1090 ∧
    (findUser (resolveUserStep true
      { market_id := "m1", user_id := "A", stake := 50, probability := 4/5 }
      dbResolveDemo).users "B").bankroll = 1000 ∧
    (findUser (resolveUserStep true
      { market_id := "m1", user_id := "A", stake := 50, probability := 4/5 }
      dbResolveDemo).users "B").total_staked = 30 ∧
    marketOpen (resolveUserStep true
      { market_id := "m1", user_id := "A", stake := 50, probability := 4/5 }
      dbResolveDemo) "m1" = true ∧
    (findUser (resolveMarket 5 "m1" true dbResolveDemo).1.users "B").bankroll = 1042 := by
  refine ⟨?_, ?_, ?_, ?_, ?_⟩ <;>
    simp [resolveUserStep, resolveMarket, resolveApply, settleAll, marketBets,
      getUser, dbResolveDemo, mkOpenMarket, defaultUser, findUser, updateUserRow,
      updateMarketRow, settleUser, betPayout, betAccuracy, wasCorrect, marketOpen,
      marketOpenL, findMarket, List.find?, List.filter, List.foldl, List.isEmpty] <;>
    norm_num

/-- Claim C5 counterexample: the create/bet/resolve/bet-again trace is a
sequence of successful operations after which user A's `total_staked` (-30)
differs from the stake sum of A's open bets (0): resolution released A's
stake, the bet row survived, and the second `placeBet` on the (resolved but
still `active`, pre-deadline) market subtracted the stale old stake. -/
theorem C5_counterexample :
    stakeInvAfter (runOps initDB opsStakeGap) "A" = some false := by
  norm_num [stakeInvAfter, runOps, opsStakeGap, stepOp, liftRes, placeBet, placeBetApply,
    resolveMarket, resolveApply, settleAll, resolveUserStep, settleUser, betPayout,
    betAccuracy, wasCorrect, createMarketCmd, findMarket, initDB, getUser, findUser,
    updateUserRow, updateMarketRow, upsertBet, betKey, oldBetOf, oldStakeOf, marketBets,
    otherBetsOf, newProbOf, updateMarketProbability, calculateStake, availableBankroll,
    defaultUser, userTotalStaked, openStakeSum, openSumAux, betContrib, marketOpenL,
    List.find?, List.filter, List.any, List.foldl, List.isEmpty]

/-- Claim C5 (amended): after any sequence of successful `placeBet` /
`resolveMarket` / market-creation operations from the initial state in which
every successful bet placement targets a market that is still unresolved at
that moment, every user's `total_staked` equals the stake sum of their
currently open bets. -/
theorem C5_amended_stake_invariant (db : DB) (h : ReachesOpenBets db) :
    StakeInv db :=
  (reachesOpenBets_wf_inv db h).2

/-- Witness for the amended C5: the invariant after a concrete create + bet
chain. -/
theorem C5_witness : StakeInv dbRebet := by
  apply C5_amended_stake_invariant
  apply ReachesOpenBets.bet dbFreshMarket dbRebet 1 "m1" "A" 40 (3/5)
  · apply ReachesOpenBets.create initDB dbFreshMarket 0 "m1" "q" "A" 100
    · exact ReachesOpenBets.init
    · norm_num [stepOp, liftRes, createMarketCmd, findMarket, initDB, dbFreshMarket,
        mkOpenMarket, List.find?]
  · norm_num [marketOpen, marketOpenL, findMarket, dbFreshMarket, mkOpenMarket, List.find?]
  · norm_num [stepOp, liftRes, placeBet, placeBetApply, findMarket, dbFreshMarket, dbRebet,
      mkOpenMarket, getUser, findUser, defaultUser, availableBankroll, oldStakeOf, oldBetOf,
      betKey, calculateStake, newProbOf, otherBetsOf, marketBets, updateMarketProbability,
      updateUserRow, updateMarketRow, upsertBet, List.find?, List.filter, List.any]

/-- Claim C3: when the checks preceding the bankroll test pass (valid
probability, market found and active, deadline not passed) and the clamped
stake exceeds `availableBankroll = bankroll - totalStaked + (old stake on this
market, 0 if none)`, `placeBet` fails with `InsufficientBankroll` carrying
exactly that value and returns the database unchanged.  (Stored stakes are
non-negative, which rules out the only write that could precede the throw:
the lazy user insert, since a fresh user always has $1000 available.) -/
theorem C3_insufficient_bankroll_unchanged (now : Int) (mid uid : String)
    (d : Int) (p : Rat) (db : DB) (market : Market)
    (hp : ¬(p < 0 ∨ 1 < p)) (hm : findMarket db.markets mid = some market)
    (ha : ¬ market.active = false) (hdl : ¬ market.deadline < now)
    (hstakes : ∀ b ∈ db.bets, 0 ≤ b.stake)
    (hins : availableBankroll db mid uid < calculateStake d) :
    placeBet now mid uid d p db
      = (db, .error (.InsufficientBankroll (availableBankroll db mid uid))) := by
  have hbranch : placeBet now mid uid d p db
      = ((getUser db uid).2, .error (.InsufficientBankroll (availableBankroll db mid uid))) := by
    simp only [placeBet, hm, if_neg hp, if_neg ha, if_neg hdl, if_pos hins]
  rw [hbranch]
  have huser : (getUser db uid).2 = db := by
    cases hf : db.users.find? (fun x => x.1 == uid) with
    | some x =>
      unfold getUser
      rw [hf]
    | none =>
      exfalso
      have hav : availableBankroll db mid uid = 1000 + oldStakeOf db.bets mid uid := by
        simp only [availableBankroll, getUser, hf]
        norm_num [defaultUser]
      have hold : 0 ≤ oldStakeOf db.bets mid uid := by
        unfold oldStakeOf oldBetOf
        cases hf2 : db.bets.find? (betKey mid uid) with
        | none => exact le_refl 0
        | some b => exact hstakes b (List.mem_of_find?_eq_some hf2)
      have hcs : calculateStake d ≤ 100 := min_le_right _ _
      rw [hav] at hins
      linarith
  rw [huser]

/-- Witness for C3: user A has $50 available and asks for a $60 bet. -/
theorem C3_witness :
    placeBet 0 "m1" "A" 60 (1/2) dbPoorUser
      = (dbPoorUser, .error (.InsufficientBankroll 50)) := by
  have h := C3_insufficient_bankroll_unchanged 0 "m1" "A" 60 (1/2) dbPoorUser
    (mkOpenMarket "m1" 100 (1/2) 0)
    (by norm_num)
    (by simp [findMarket, dbPoorUser, mkOpenMarket, List.find?])
    (by simp [mkOpenMarket])
    (by norm_num [mkOpenMarket])
    (by intro b hb; simp [dbPoorUser] at hb)
    (by simp [availableBankroll, getUser, dbPoorUser, findUser, defaultUser, oldStakeOf,
          oldBetOf, calculateStake, List.find?, betKey, mkOpenMarket])
  rw [h]
  have : availableBankroll dbPoorUser "m1" "A" = 50 := by
    simp [availableBankroll, getUser, dbPoorUser, findUser, defaultUser, oldStakeOf,
      oldBetOf, List.find?, betKey, mkOpenMarket]
  rw [this]

/-- Claim C7: replacing a user's own open bet with an identical one (same
stake in `[1,100]`, same probability) through a successful `placeBet` leaves
the market's `total_stake` and `probability` and the user's `total_staked`
unchanged.  The hypotheses record the success conditions of the call and the
standing state invariants: stored stakes are clamped (at least 1), the
`(market, user)` key is unique, and the stored market probability is the
stake-weighted mean of its bets (which every earlier `placeBet` establishes). -/
theorem C7_identical_replacement_idempotent (now : Int) (mid uid : String)
    (db : DB) (market : Market) (b : BetRow)
    (hm : findMarket db.markets mid = some market)
    (ha : ¬ market.active = false) (hdl : ¬ market.deadline < now)
    (hb : oldBetOf db.bets mid uid = some b)
    (hs1 : 1 ≤ b.stake) (hs2 : b.stake ≤ 100)
    (hp : ¬(b.probability < 0 ∨ 1 < b.probability))
    (haff : ¬ availableBankroll db mid uid < calculateStake b.stake)
    (hnd : (betKeys db.bets).Nodup)
    (hstakes : ∀ x ∈ db.bets, 1 ≤ x.stake)
    (hmean : market.probability = stakeWeightedMean (marketBets db.bets mid)) :
    (∃ m', findMarket (placeBet now mid uid b.stake b.probability db).1.markets mid
        = some m' ∧ m'.probability = market.probability
        ∧ m'.total_stake = market.total_stake) ∧
    userTotalStaked (placeBet now mid uid b.stake b.probability db).1 uid
      = userTotalStaked db uid := by
  have hclamp : calculateStake b.stake = b.stake := by
    unfold calculateStake
    omega
  have hkb := (betKey_iff mid uid b).mp (List.find?_some hb)
  have hmem : b ∈ db.bets := List.mem_of_find?_eq_some hb
  have hmemmb : b ∈ marketBets db.bets mid := by
    unfold marketBets
    exact List.mem_filter.mpr ⟨hmem, by simp [hkb.1]⟩
  have husers := marketBets_users_nodup db.bets mid hnd
  have hold : oldStakeOf db.bets mid uid = b.stake := by
    unfold oldStakeOf
    rw [hb]
  have hsplitT : ((marketBets db.bets mid).map (fun x => (x.stake:Rat))).sum
      = ((otherBetsOf db.bets mid uid).map (fun x => (x.stake:Rat))).sum + (b.stake:Rat) := by
    have := sum_split_user uid (fun x => (x.stake:Rat)) (marketBets db.bets mid)
      husers b hmemmb hkb.2
    simpa [otherBetsOf] using this
  have hsplitW : ((marketBets db.bets mid).map (fun x => (x.stake:Rat) * x.probability)).sum
      = ((otherBetsOf db.bets mid uid).map (fun x => (x.stake:Rat) * x.probability)).sum
        + (b.stake:Rat) * b.probability := by
    have := sum_split_user uid (fun x => (x.stake:Rat) * x.probability)
      (marketBets db.bets mid) husers b hmemmb hkb.2
    simpa [otherBetsOf] using this
  have hother_stakes : ∀ x ∈ otherBetsOf db.bets mid uid, (1:Rat) ≤ (x.stake:Rat) := by
    intro x hx
    have hx1 : x ∈ marketBets db.bets mid := List.mem_of_mem_filter hx
    have hx2 : x ∈ db.bets := List.mem_of_mem_filter hx1
    exact_mod_cast hstakes x hx2
  have hbr : (1:Rat) ≤ (b.stake:Rat) := by exact_mod_cast hs1
  have hprob_eq : newProbOf db.bets mid uid (calculateStake b.stake) b.probability
      = market.probability := by
    rw [hclamp]
    unfold newProbOf
    have hfst : (((otherBetsOf db.bets mid uid).map
        (fun x => ((x.stake : Rat), x.probability))).map Prod.fst)
        = (otherBetsOf db.bets mid uid).map (fun x => (x.stake:Rat)) := by
      rw [List.map_map]
      rfl
    have hwprod : (((otherBetsOf db.bets mid uid).map
        (fun x => ((x.stake : Rat), x.probability))).map (fun y => y.1 * y.2))
        = (otherBetsOf db.bets mid uid).map (fun x => (x.stake:Rat) * x.probability) := by
      rw [List.map_map]
      rfl
    by_cases hT : ((otherBetsOf db.bets mid uid).map (fun x => (x.stake:Rat))).sum = 0
    · have hnil : (otherBetsOf db.bets mid uid).map (fun x => (x.stake:Rat)) = [] :=
        eq_nil_of_one_le_of_sum_eq_zero _
          (by intro x hx; rcases List.mem_map.mp hx with ⟨y, hy, hye⟩; rw [← hye];
              exact hother_stakes y hy) hT
      have hnil2 : otherBetsOf db.bets mid uid = [] := List.map_eq_nil_iff.mp hnil
      rw [hnil2]
      rw [hmean]
      unfold stakeWeightedMean
      rw [hsplitT, hsplitW, hnil2]
      simp only [List.map_nil, List.sum_nil, zero_add]
      rw [mul_comm, mul_div_assoc, div_self (by linarith), mul_one]
      simp [updateMarketProbability]
    · simp only [updateMarketProbability, hfst, hwprod]
      rw [if_neg hT]
      have hTpos : 0 < ((otherBetsOf db.bets mid uid).map (fun x => (x.stake:Rat))).sum := by
        rcases lt_of_le_of_ne (List.sum_nonneg (by
          intro x hx; rcases List.mem_map.mp hx with ⟨y, hy, hye⟩; rw [← hye]
          exact le_trans zero_le_one (hother_stakes y hy))) (Ne.symm hT) with h
        exact h
      have hnt : ¬(((otherBetsOf db.bets mid uid).map (fun x => (x.stake:Rat))).sum
          - 0 + (b.stake:Rat) = 0) := by
        intro hc
        rw [sub_zero] at hc
        linarith
      rw [if_neg hnt]
      rw [hmean]
      unfold stakeWeightedMean
      rw [hsplitT, hsplitW]
      rw [sub_zero, zero_mul, sub_zero]
  rw [placeBet_success_eq now mid uid b.stake b.probability db market hp hm ha hdl haff]
  have hid := List.find?_some (show List.find? (fun m => m.id == mid) db.markets
      = some market from hm)
  simp only [beq_iff_eq] at hid
  constructor
  · simp only [placeBetApply, getUser_bets, getUser_markets]
    rw [findMarket_updateMarketRow db.markets mid mid
      (fun m => { m with
        probability := newProbOf db.bets mid uid (calculateStake b.stake) b.probability
        total_stake := market.total_stake - oldStakeOf db.bets mid uid
          + calculateStake b.stake })
      (fun m => rfl), hm]
    refine ⟨_, rfl, ?_, ?_⟩
    · simp only [hid, if_pos, beq_self_eq_true, if_true]
      exact hprob_eq
    · simp only [hid, beq_self_eq_true, if_true]
      rw [hclamp, hold]
      ring
  · unfold userTotalStaked
    simp only [placeBetApply, getUser_bets]
    rw [findUser_updateUserRow_eq _ uid _ (getUser_present db uid)]
    have hfu : (getUser db uid).1 = findUser db.users uid := getUser_fst db uid
    simp only [hfu, hclamp, hold]
    ring

/-- Witness for C7: re-placing the identical $40 @ 0.6 bet on `dbRebet`. -/
theorem C7_witness :
    userTotalStaked (placeBet 0 "m1" "A" 40 (3/5) dbRebet).1 "A"
      = userTotalStaked dbRebet "A" := by
  have h := C7_identical_replacement_idempotent 0 "m1" "A" dbRebet
    (mkOpenMarket "m1" 100 (3/5) 40)
    { market_id := "m1", user_id := "A", stake := 40, probability := 3/5 }
    (by simp [findMarket, dbRebet, mkOpenMarket, List.find?])
    (by simp [mkOpenMarket])
    (by norm_num [mkOpenMarket])
    (by simp [oldBetOf, dbRebet, betKey, List.find?])
    (by norm_num)
    (by norm_num)
    (by norm_num)
    (by simp [availableBankroll, getUser, dbRebet, findUser, defaultUser, oldStakeOf,
          oldBetOf, calculateStake, List.find?, betKey])
    (by simp [betKeys, dbRebet])
    (by intro x hx; simp [dbRebet] at hx; rw [hx]; norm_num)
    (by simp [stakeWeightedMean, marketBets, dbRebet, mkOpenMarket, List.filter])
  exact h.2

/-- Claim C6: on one market's bet list (one bet per user, stakes clamped to at
least 1) the two bet-placement variants compute the same new probability: the
database variant filters the user's old bet out of the inputs and passes zero
correction terms, the in-memory variant passes the full list together with the
old bet's stake/probability as subtract-corrections. -/
theorem C6_variants_compute_same_probability (bets : List BetRow) (uid : String)
    (s p : Rat) (hnd : (bets.map (fun x => x.user_id)).Nodup)
    (hstakes : ∀ x ∈ bets, 1 ≤ x.stake) (hs : 1 ≤ s) :
    dbVariantProb bets uid s p = memVariantProb bets uid s p := by
  cases hf : bets.find? (fun x => x.user_id == uid) with
  | none =>
    have hall := List.find?_eq_none.mp hf
    have hfilter : bets.filter (fun x => !(x.user_id == uid)) = bets := by
      apply List.filter_eq_self.mpr
      intro x hx
      simpa using hall x hx
    simp only [dbVariantProb, memVariantProb, hf, hfilter]
  | some b =>
    have hbu : b.user_id = uid := by simpa using List.find?_some hf
    have hmem : b ∈ bets := List.mem_of_find?_eq_some hf
    have hbr : (1:Rat) ≤ (b.stake:Rat) := by exact_mod_cast hstakes b hmem
    have hsplitT : (bets.map (fun x => (x.stake:Rat))).sum
        = ((bets.filter (fun x => !(x.user_id == uid))).map (fun x => (x.stake:Rat))).sum
          + (b.stake:Rat) :=
      sum_split_user uid (fun x => (x.stake:Rat)) bets hnd b hmem hbu
    have hsplitW : (bets.map (fun x => (x.stake:Rat) * x.probability)).sum
        = ((bets.filter (fun x => !(x.user_id == uid))).map
            (fun x => (x.stake:Rat) * x.probability)).sum
          + (b.stake:Rat) * b.probability :=
      sum_split_user uid (fun x => (x.stake:Rat) * x.probability) bets hnd b hmem hbu
    have hfstF : (((bets.filter (fun x => !(x.user_id == uid))).map
        (fun x => ((x.stake : Rat), x.probability))).map Prod.fst)
        = (bets.filter (fun x => !(x.user_id == uid))).map (fun x => (x.stake:Rat)) := by
      rw [List.map_map]
      rfl
    have hwF : (((bets.filter (fun x => !(x.user_id == uid))).map
        (fun x => ((x.stake : Rat), x.probability))).map (fun y => y.1 * y.2))
        = (bets.filter (fun x => !(x.user_id == uid))).map
            (fun x => (x.stake:Rat) * x.probability) := by
      rw [List.map_map]
      rfl
    have hfstA : ((bets.map (fun x => ((x.stake : Rat), x.probability))).map Prod.fst)
        = bets.map (fun x => (x.stake:Rat)) := by
      rw [List.map_map]
      rfl
    have hwA : ((bets.map (fun x => ((x.stake : Rat), x.probability))).map
        (fun y => y.1 * y.2))
        = bets.map (fun x => (x.stake:Rat) * x.probability) := by
      rw [List.map_map]
      rfl
    have hT0 : 0 ≤ ((bets.filter (fun x => !(x.user_id == uid))).map
        (fun x => (x.stake:Rat))).sum := by
      apply List.sum_nonneg
      intro x hx
      rcases List.mem_map.mp hx with ⟨y, hy, hye⟩
      rw [← hye]
      have : (1:Rat) ≤ (y.stake:Rat) := by
        exact_mod_cast hstakes y (List.mem_of_mem_filter hy)
      linarith
    simp only [dbVariantProb, memVariantProb, hf, updateMarketProbability,
      hfstF, hwF, hfstA, hwA]
    by_cases hT : ((bets.filter (fun x => !(x.user_id == uid))).map
        (fun x => (x.stake:Rat))).sum = 0
    · rw [if_pos hT]
      have hnil0 : (bets.filter (fun x => !(x.user_id == uid))).map
          (fun x : BetRow => (x.stake:Rat)) = [] := by
        apply eq_nil_of_one_le_of_sum_eq_zero _ ?_ hT
        intro x hx
        rcases List.mem_map.mp hx with ⟨y, hy, hye⟩
        rw [← hye]
        exact_mod_cast hstakes y (List.mem_of_mem_filter hy)
      have hnil : bets.filter (fun x => !(x.user_id == uid)) = [] :=
        List.map_eq_nil_iff.mp hnil0
      have hTall : (bets.map (fun x => (x.stake:Rat))).sum = (b.stake:Rat) := by
        rw [hsplitT, hT, zero_add]
      have hWall : (bets.map (fun x => (x.stake:Rat) * x.probability)).sum
          = (b.stake:Rat) * b.probability := by
        rw [hsplitW, hnil]
        simp
      rw [if_neg (show ¬((bets.map (fun x => (x.stake:Rat))).sum = 0) by
        rw [hTall]; intro hc; linarith)]
      rw [hTall, hWall]
      have h1 : (b.stake:Rat) * b.probability - (b.stake:Rat) * b.probability + s * p
          = s * p := by ring
      have h2 : (b.stake:Rat) - (b.stake:Rat) + s = s := by ring
      rw [h1, h2]
      rw [if_neg (show ¬(s = 0) by intro hc; linarith)]
      rw [mul_comm, mul_div_assoc, div_self (by linarith), mul_one]
    · rw [if_neg hT]
      have hdbinner : ¬(((bets.filter (fun x => !(x.user_id == uid))).map
          (fun x => (x.stake:Rat))).sum - 0 + s = 0) := by
        intro hc
        rw [sub_zero] at hc
        linarith
      rw [if_neg hdbinner]
      rw [hsplitT, hsplitW]
      have hmemouter : ¬(((bets.filter (fun x => !(x.user_id == uid))).map
          (fun x => (x.stake:Rat))).sum + (b.stake:Rat) = 0) := by
        intro hc
        linarith
      rw [if_neg hmemouter]
      have hmeminner : ¬(((bets.filter (fun x => !(x.user_id == uid))).map
          (fun x => (x.stake:Rat))).sum + (b.stake:Rat) - (b.stake:Rat) + s = 0) := by
        intro hc
        rw [add_sub_cancel_right] at hc
        linarith
      rw [if_neg hmeminner]
      simp only [sub_zero, zero_mul, add_sub_cancel_right]

/-- Witness for C6 at a concrete market state with an existing old bet. -/
theorem C6_witness :
    dbVariantProb
      [{ market_id := "m1", user_id := "B", stake := 30, probability := 7/10 },
       { market_id := "m1", user_id := "A", stake := 40, probability := 3/5 }]
      "A" 60 (9/10)
      = memVariantProb
        [{ market_id := "m1", user_id := "B", stake := 30, probability := 7/10 },
         { market_id := "m1", user_id := "A", stake := 40, probability := 3/5 }]
        "A" 60 (9/10) := by
  apply C6_variants_compute_same_probability
  · simp
  · intro x hx
    rcases List.mem_cons.mp hx with h1 | h1
    · rw [h1]
      norm_num
    · simp only [List.mem_singleton] at h1
      rw [h1]
      norm_num
  · norm_num

end SlackMarket

